import Mathlib

/-!
Shallow embedding of the conway repository backend (src/backend/mod.rs and
src/backend/updater.rs): the AABB bounding box, the QTree quadtree with its
operations (get, set, remove, query, iteration), and the Updater publishing
loop.  Machine integers (i32) are modelled as unbounded Int; the float
computation in QTree::set, namely max(x, y) |> log2 |> ceil |> exp2 |> as i32,
is modelled exactly for the i32 range it is applied to (for 1 <= m < 2^31 the
f64 rounding of log2 never crosses an integer, so ceil(log2 m) equals
Nat.clog 2 m; for m <= 0 the float chain yields NaN or -inf and the cast to
i32 yields 0).  QTree::set is recursive through QTree::extend with no evident
well-founded measure, so it is embedded with an explicit fuel parameter; a
result of none means the fuel ran out, and every theorem about set is stated
about successful (some) runs.
-/

namespace Conway

/-- A 2D point with signed integer coordinates, as in backend/mod.rs. -/
abbrev Point := Int × Int

/-- Axis-aligned bounding box: center and half-dimension (struct AABB). -/
structure AABB where
  cx : Int
  cy : Int
  halfDim : Int
deriving DecidableEq

/-- AABB::contains: the box is half-open, bottom and left borders included. -/
def AABB.contains (b : AABB) (p : Point) : Bool :=
  decide (-b.halfDim ≤ p.1 - b.cx) && decide (p.1 - b.cx < b.halfDim) &&
    decide (-b.halfDim ≤ p.2 - b.cy) && decide (p.2 - b.cy < b.halfDim)

/-- AABB::x_range. -/
def AABB.xRange (b : AABB) : Int × Int := (b.cx - b.halfDim, b.cx + b.halfDim)

/-- AABB::y_range. -/
def AABB.yRange (b : AABB) : Int × Int := (b.cy - b.halfDim, b.cy + b.halfDim)

/-- AABB::intersects_range. -/
def intersectsRange (a b : Int × Int) : Bool :=
  (decide (a.1 ≤ b.1) && decide (a.2 > b.1)) || (decide (b.1 ≤ a.1) && decide (b.2 > a.1))

/-- AABB::intersects. -/
def AABB.intersects (s o : AABB) : Bool :=
  intersectsRange s.xRange o.xRange && intersectsRange s.yRange o.yRange

/-- The QTree node: a leaf with four optional point slots, or an internal
node with four children (struct QTree with points xor children; the
reachable states of the Rust struct always have exactly one of the two
fields set, which the inductive makes structural). -/
inductive QTree where
  | leaf (b : AABB) (slots : List (Option Point))
  | internal (b : AABB) (c0 c1 c2 c3 : QTree)
deriving DecidableEq

/-- Modelled from the spec: the boundary accessor used by Updater::build_next
lives in the backend::data module, which is not present in the sources; per
the data model every node stores its own bounding box, and the accessor
returns it. -/
def QTree.boundary : QTree → AABB
  | .leaf b _ => b
  | .internal b _ _ _ _ => b

/-- QTree::get_child: quadrant index of a point (0 NE, 1 NW, 2 SE, 3 SW),
ties going north and east. -/
def getChild (b : AABB) (p : Point) : Nat :=
  if b.cy ≤ p.2 then (if b.cx ≤ p.1 then 0 else 1)
  else (if b.cx ≤ p.1 then 2 else 3)

/-- The QTree iterator (QTreeIter::next, materialized): slot order for
leaves skipping empty slots, children in index order NE, NW, SE, SW. -/
def QTree.toList : QTree → List Point
  | .leaf _ slots => slots.filterMap id
  | .internal _ c0 c1 c2 c3 => c0.toList ++ c1.toList ++ c2.toList ++ c3.toList

/-- QTree::get: scan the slots of a leaf, or descend into the single
responsible child. -/
def QTree.get : QTree → Point → Bool
  | .leaf _ slots, p => slots.contains (some p)
  | .internal b c0 c1 c2 c3, p =>
      let i := getChild b p
      if i = 0 then c0.get p else if i = 1 then c1.get p
      else if i = 2 then c2.get p else c3.get p

/-- QTree::query: prune on boundary intersection, filter leaf slots by
containment, concatenate children results. -/
def QTree.query : QTree → AABB → List Point
  | .leaf b slots, a =>
      if b.intersects a then (slots.filterMap id).filter (fun p => a.contains p) else []
  | .internal b c0 c1 c2 c3, a =>
      if b.intersects a then c0.query a ++ c1.query a ++ c2.query a ++ c3.query a else []

/-- The slot update performed by QTree::remove on a leaf: clear the first
slot holding the point, leave everything else unchanged. -/
def removeSlots : List (Option Point) → Point → List (Option Point)
  | [], _ => []
  | s :: rest, p => if s = some p then none :: rest else s :: removeSlots rest p

/-- The slot array built by QTree::check_union when it collapses: the
enumerated points in order, remaining slots empty. -/
def padSlots (pts : List Point) : List (Option Point) :=
  pts.map some ++ List.replicate (4 - pts.length) none

/-- QTree::check_union: if at most QTREE_CAP = 4 points remain under the
node, collapse it into a leaf holding them; otherwise leave it unchanged. -/
def checkUnion : QTree → QTree
  | .internal b c0 c1 c2 c3 =>
      let pts := (QTree.internal b c0 c1 c2 c3).toList
      if pts.length ≤ 4 then .leaf b (padSlots pts) else .internal b c0 c1 c2 c3
  | t => t

/-- QTree::remove: clear the slot in a leaf; for an internal node recurse
into the responsible child and then run check_union. -/
def QTree.remove : QTree → Point → QTree
  | .leaf b slots, p => .leaf b (removeSlots slots p)
  | .internal b c0 c1 c2 c3, p =>
      let i := getChild b p
      checkUnion (QTree.internal b
        (if i = 0 then c0.remove p else c0)
        (if i = 1 then c1.remove p else c1)
        (if i = 2 then c2.remove p else c2)
        (if i = 3 then c3.remove p else c3))

/-- The slot scan of QTree::set on a leaf: walk the slots in order; on a slot
already holding the point stop unchanged (duplicate), on the first empty slot
store the point; some means the scan returned, none means it fell through
(full leaf, subdivision needed). -/
def insertSlots : List (Option Point) → Point → Option (List (Option Point))
  | [], _ => none
  | some q :: rest, p =>
      if q = p then some (some q :: rest)
      else (insertSlots rest p).map (fun r => some q :: r)
  | none :: rest, p => some (some p :: rest)

/-- Ceiling of the base-2 logarithm on positive naturals, written with a
structural fuel bound (m halvings always suffice) so that it evaluates by
kernel reduction. -/
def clog2Aux : Nat → Nat → Nat
  | 0, _ => 0
  | Nat.succ fuel, m => if m ≤ 1 then 0 else clog2Aux fuel ((m + 1) / 2) + 1

/-- Smallest k such that m is at most 2 to the k, for m at least 1. -/
def clog2 (m : Nat) : Nat := clog2Aux m m

/-- The half-dimension computed by QTree::set for an out-of-boundary point:
f64::max(x, y) |> log2 |> ceil |> exp2 |> as i32.  Note that the Rust code
takes the max of the signed coordinates, not of their absolute values; for a
non-positive max the float chain produces NaN or -inf and the cast yields 0. -/
def halfDimFor (p : Point) : Int :=
  let m := max p.1 p.2
  if m ≤ 0 then 0 else 2 ^ clog2 m.toNat

/-- QTree::new_bbs: the four quadrant boundaries (NE, NW, SE, SW), each with
half the half-dimension (i32 division truncates toward zero, hence tdiv). -/
def newBBs (b : AABB) : AABB × AABB × AABB × AABB :=
  let h := Int.tdiv b.halfDim 2
  (⟨b.cx + h, b.cy + h, h⟩, ⟨b.cx - h, b.cy + h, h⟩,
   ⟨b.cx + h, b.cy - h, h⟩, ⟨b.cx - h, b.cy - h, h⟩)

/-- A freshly constructed node: QTree::new before any insertion. -/
def emptyLeaf (b : AABB) : QTree := .leaf b [none, none, none, none]

/-- Insert a list of points one by one with a given insertion function
(the for loops in QTree::new and QTree::extend). -/
def setList (f : QTree → Point → Option QTree) : QTree → List Point → Option QTree
  | t, [] => some t
  | t, p :: ps =>
      match f t p with
      | none => none
      | some t2 => setList f t2 ps

/-- QTree::new with a given insertion function: an empty leaf seeded by
inserting each element in order. -/
def newGo (f : QTree → Point → Option QTree) (b : AABB) (pts : List Point) : Option QTree :=
  setList f (emptyLeaf b) pts

/-- QTree::extend with a given insertion function: install the new boundary;
a leaf keeps its slots, an internal node collects its points, replaces all
four children by fresh empty leaves on the new quadrants and re-inserts the
collected points. -/
def extendGo (f : QTree → Point → Option QTree) (t : QTree) (nb : AABB) : Option QTree :=
  match t with
  | .leaf _ slots => some (.leaf nb slots)
  | .internal _ c0 c1 c2 c3 =>
      let pts := (QTree.internal nb c0 c1 c2 c3).toList
      match newBBs nb with
      | (b0, b1, b2, b3) =>
          setList f (.internal nb (emptyLeaf b0) (emptyLeaf b1) (emptyLeaf b2) (emptyLeaf b3)) pts

/-- QTree::subdivide with a given insertion function: partition the occupied
slots of a full leaf into the quadrants whose boundary contains them (points
contained in no quadrant are dropped) and build the four children with
QTree::new. -/
def subdivideGo (f : QTree → Point → Option QTree) (b : AABB) (slots : List (Option Point)) :
    Option QTree :=
  match newBBs b with
  | (b0, b1, b2, b3) =>
      let pts := slots.filterMap id
      match newGo f b0 (pts.filter (fun p => b0.contains p)) with
      | none => none
      | some t0 =>
          match newGo f b1 (pts.filter (fun p => b1.contains p)) with
          | none => none
          | some t1 =>
              match newGo f b2 (pts.filter (fun p => b2.contains p)) with
              | none => none
              | some t2 =>
                  match newGo f b3 (pts.filter (fun p => b3.contains p)) with
                  | none => none
                  | some t3 => some (QTree.internal b t0 t1 t2 t3)

/-- Recursion of QTree::set into the responsible child of an internal node
(children[child].set(point)); on a leaf this is the invalid-state path,
which is unreachable. -/
def setChildGo (f : QTree → Point → Option QTree) : QTree → Point → Option QTree
  | .leaf _ _, _ => none
  | .internal b c0 c1 c2 c3, p =>
      let i := getChild b p
      if i = 0 then (f c0 p).map (fun c => QTree.internal b c c1 c2 c3)
      else if i = 1 then (f c1 p).map (fun c => QTree.internal b c0 c c2 c3)
      else if i = 2 then (f c2 p).map (fun c => QTree.internal b c0 c1 c c3)
      else (f c3 p).map (fun c => QTree.internal b c0 c1 c2 c)

/-- The phase of QTree::set after the boundary check: scan the slots of a
leaf (duplicate check and first free slot in order), subdividing a full
leaf and descending into the responsible child, or recurse directly into
the responsible child of an internal node. -/
def setStep (f : QTree → Point → Option QTree) : QTree → Point → Option QTree
  | .leaf b slots, p =>
      match insertSlots slots p with
      | some slots2 => some (QTree.leaf b slots2)
      | none =>
          match subdivideGo f b slots with
          | none => none
          | some t2 => setChildGo f t2 p
  | .internal b c0 c1 c2 c3, p => setChildGo f (QTree.internal b c0 c1 c2 c3) p

/-- QTree::set with fuel: extend the boundary when the point is outside it,
then run the insertion phase.  All recursive calls run at the decremented
fuel. -/
def QTree.setF : Nat → QTree → Point → Option QTree
  | 0, _, _ => none
  | Nat.succ fuel, t, p =>
      match (if (QTree.boundary t).contains p then some t
             else extendGo (QTree.setF fuel) t
               ⟨(QTree.boundary t).cx, (QTree.boundary t).cy, halfDimFor p⟩) with
      | none => none
      | some t1 => setStep (QTree.setF fuel) t1 p

/-- QTree::new with fuel. -/
def QTree.newF (fuel : Nat) (b : AABB) (pts : List Point) : Option QTree :=
  newGo (QTree.setF fuel) b pts

/-- Whether a node is in internal (subdivided) form. -/
def QTree.isInternal : QTree → Bool
  | .leaf _ _ => false
  | .internal _ _ _ _ _ => true

/-- Updater::build_next: a fresh tree with the boundary of the current one,
seeded by inserting every enumerated point of the current tree. -/
def buildNextF (fuel : Nat) (t : QTree) : Option QTree :=
  setList (QTree.setF fuel) (emptyLeaf t.boundary) t.toList

/-- The successive generations the Updater publishes: k iterates of
build_next starting from the initial tree. -/
def buildIter (fuel : Nat) : Nat → QTree → Option (List QTree)
  | 0, _ => some []
  | Nat.succ k, t =>
      (buildNextF fuel t).bind fun t2 => (buildIter fuel k t2).map fun l => t :: l

/-- Updater::run over a prescribed sequence of send outcomes (true: the
consumer is alive and the send succeeds, false: the consumer is gone and the
send fails): returns the list of successfully published trees and the number
of send attempts performed before the loop stopped.  The loop body sends the
current tree and, only on success, builds the next generation. -/
def runModel (fuel : Nat) : List Bool → QTree → Option (List QTree × Nat)
  | [], _ => some ([], 0)
  | false :: _, _ => some ([], 1)
  | true :: rest, t =>
      (buildNextF fuel t).bind fun t2 =>
        (runModel fuel rest t2).map fun pr => (t :: pr.1, pr.2 + 1)

/-- Invariant I2 of the spec: every point physically stored under a node
lies within that node's boundary, at every level. -/
def QTree.wfBounded : QTree → Bool
  | .leaf b slots => (slots.filterMap id).all (fun p => b.contains p)
  | .internal b c0 c1 c2 c3 =>
      c0.wfBounded && c1.wfBounded && c2.wfBounded && c3.wfBounded &&
        ((c0.toList ++ c1.toList ++ c2.toList ++ c3.toList).all (fun p => b.contains p))

/-- Overlap of two half-open integer ranges as the spec words it: some
integer lies in both. -/
def rangeOverlap (a b : Int × Int) : Prop :=
  ∃ x : Int, a.1 ≤ x ∧ x < a.2 ∧ b.1 ≤ x ∧ x < b.2

/-- The spec definition of box intersection: the half-open x-ranges and the
half-open y-ranges both overlap. -/
def overlapSpec (s o : AABB) : Prop :=
  rangeOverlap s.xRange o.xRange ∧ rangeOverlap s.yRange o.yRange

/-- The internal tree reached in the concrete scenario of the spec: seed
an empty tree of boundary center (0,0), half-dimension 4 with the points
(0,0), (3,2), (0,-3), (0,-4), (2,2). -/
def scenarioTree6 : QTree :=
  QTree.internal ⟨0, 0, 4⟩
    (QTree.leaf ⟨2, 2, 2⟩ [some (0, 0), some (3, 2), some (2, 2), none])
    (QTree.leaf ⟨-2, 2, 2⟩ [none, none, none, none])
    (QTree.leaf ⟨2, -2, 2⟩ [some (0, -3), some (0, -4), none, none])
    (QTree.leaf ⟨-2, -2, 2⟩ [none, none, none, none])

/-- The tree used to refute the claim that build_next preserves the point
set: five points, all inside the root boundary of half-dimension 5, with
(4,4) stored first in enumeration order. -/
def dropTree10 : QTree :=
  QTree.internal ⟨0, 0, 5⟩
    (QTree.leaf ⟨2, 2, 2⟩ [some (4, 4), some (0, 0), some (1, 1), some (2, 2)])
    (QTree.leaf ⟨-2, 2, 2⟩ [some (3, 3), none, none, none])
    (QTree.leaf ⟨2, -2, 2⟩ [none, none, none, none])
    (QTree.leaf ⟨-2, -2, 2⟩ [none, none, none, none])

/-! Helper lemmas. -/

/-- Membership in the occupied slots of a leaf. -/
theorem mem_filterMap_id {q : Point} {slots : List (Option Point)} :
    q ∈ slots.filterMap id ↔ some q ∈ slots := by
  simp [List.mem_filterMap]

/-- Removing an absent point from a slot list changes nothing. -/
theorem removeSlots_of_not_mem {slots : List (Option Point)} {p : Point}
    (h : some p ∉ slots) : removeSlots slots p = slots := by
  induction slots with
  | nil => rfl
  | cons s rest ih =>
      simp only [List.mem_cons, not_or] at h
      have hs : s ≠ some p := fun he => h.1 he.symm
      simp only [removeSlots, if_neg hs, ih h.2]

/-- The collapsed slot array enumerates exactly the collapsed points. -/
theorem filterMap_padSlots (l : List Point) : (padSlots l).filterMap id = l := by
  unfold padSlots
  rw [List.filterMap_append]
  have h1 : (l.map some).filterMap id = l := by
    induction l with
    | nil => rfl
    | cons a l ih => simp [List.filterMap_cons, ih]
  have h2 : (List.replicate (4 - l.length) (none : Option Point)).filterMap id = [] := by
    generalize 4 - l.length = k
    induction k with
    | zero => rfl
    | succ k ih => simp [List.replicate_succ, List.filterMap_cons, ih]
  rw [h1, h2, List.append_nil]

/-- check_union preserves the enumerated point list. -/
theorem checkUnion_toList (t : QTree) : (checkUnion t).toList = t.toList := by
  match t with
  | .leaf b slots => rfl
  | .internal b c0 c1 c2 c3 =>
      simp only [checkUnion]
      split
      · simp [QTree.toList, filterMap_padSlots]
      · rfl

/-- Removing an absent point leaves the enumerated point list unchanged. -/
theorem remove_toList_of_not_mem :
    ∀ (t : QTree) (p : Point), p ∉ t.toList → (t.remove p).toList = t.toList := by
  intro t
  induction t with
  | leaf b slots =>
      intro p h
      simp only [QTree.toList, mem_filterMap_id] at h
      simp only [QTree.remove, QTree.toList, removeSlots_of_not_mem h]
  | internal b c0 c1 c2 c3 ih0 ih1 ih2 ih3 =>
      intro p h
      simp only [QTree.toList, List.mem_append, not_or] at h
      obtain ⟨⟨⟨h0, h1⟩, h2⟩, h3⟩ := h
      have e0 : (if getChild b p = 0 then c0.remove p else c0).toList = c0.toList := by
        split
        · exact ih0 p h0
        · rfl
      have e1 : (if getChild b p = 1 then c1.remove p else c1).toList = c1.toList := by
        split
        · exact ih1 p h1
        · rfl
      have e2 : (if getChild b p = 2 then c2.remove p else c2).toList = c2.toList := by
        split
        · exact ih2 p h2
        · rfl
      have e3 : (if getChild b p = 3 then c3.remove p else c3).toList = c3.toList := by
        split
        · exact ih3 p h3
        · rfl
      simp only [QTree.remove, checkUnion_toList, QTree.toList, e0, e1, e2, e3]

/-! Claim theorems. -/

/-- Claim C1 is violated by the code: inserting the five distinct points
(-9,6), (0,0), (1,1), (2,2), (3,3) into an initially empty tree with
boundary centered at the origin and half-dimension 4 yields a tree in which
get on the inserted point (-9,6) returns false.  The signed (not absolute)
magnitude computation in QTree::set under-extends the boundary to
half-dimension 8, and the subsequent subdivision silently drops the
out-of-boundary point. -/
theorem C1_containment_roundtrip_failure :
    (setList (QTree.setF 30) (emptyLeaf ⟨0, 0, 4⟩)
        [(-9, 6), (0, 0), (1, 1), (2, 2), (3, 3)]).map
      (fun t => t.get (-9, 6)) = some false := by
  decide

/-- Claim C2 is violated by the code: calling set with the out-of-boundary
point (-9,6) on an empty tree with boundary center (0,0) and half-dimension
4 rebuilds the boundary with half-dimension 8 (the smallest power of two not
below the signed maximum 6), not 16 (the smallest power of two not below the
larger coordinate magnitude 9), and the triggering point is not contained in
the new boundary even though it got stored in a slot. -/
theorem C2_extension_failure :
    (QTree.setF 10 (emptyLeaf ⟨0, 0, 4⟩) (-9, 6)).map
      (fun t => (t.boundary.halfDim, t.boundary.contains (-9, 6), t.get (-9, 6))) =
      some (8, false, true) := by
  decide

/-- Claim C4 is violated by the code: after inserting (0,0), (1,1), (2,2)
and removing (1,1), the leaf slots hold an empty slot before the slot
holding (2,2); get (2,2) is true, yet set (2,2) stores the point into the
first empty slot, producing a second occurrence of (2,2), contradicting the
documented duplicate no-op. -/
theorem C4_duplicate_insert_failure :
    (setList (QTree.setF 20) (emptyLeaf ⟨0, 0, 4⟩) [(0, 0), (1, 1), (2, 2)]).map
        (fun t => t.remove (1, 1)) =
      some (QTree.leaf ⟨0, 0, 4⟩ [some (0, 0), none, some (2, 2), none]) ∧
    QTree.get (QTree.leaf ⟨0, 0, 4⟩ [some (0, 0), none, some (2, 2), none]) (2, 2) = true ∧
    QTree.setF 20 (QTree.leaf ⟨0, 0, 4⟩ [some (0, 0), none, some (2, 2), none]) (2, 2) =
      some (QTree.leaf ⟨0, 0, 4⟩ [some (0, 0), some (2, 2), some (2, 2), none]) ∧
    (QTree.toList (QTree.leaf ⟨0, 0, 4⟩
        [some (0, 0), some (2, 2), some (2, 2), none])).count (2, 2) = 2 := by
  refine ⟨by decide, by decide, by decide, by decide⟩

/-- Claim C5 is violated by the code: after the public operations that
insert (-9,6), (0,0), (1,1), (2,2), (3,3) into an empty tree of boundary
center (0,0) and half-dimension 4, the root is an Internal node whose total
descendant point count is 4, not strictly greater than 4: the subdivision
dropped the point (-9,6) stored outside the under-extended boundary. -/
theorem C5_capacity_invariant_failure :
    (setList (QTree.setF 30) (emptyLeaf ⟨0, 0, 4⟩)
        [(-9, 6), (0, 0), (1, 1), (2, 2), (3, 3)]).map
      (fun t => (t.isInternal, t.toList.length)) = some (true, 4) := by
  decide

/-- Claim C6: remove of an absent point leaves the enumerated point list
unchanged; remove on an Internal node recurses into the single responsible
child and collapses the node into a Leaf holding the remaining points
exactly when at most 4 points remain under it, leaving the Internal
structure unchanged otherwise; and in the concrete scenario, inserting
(0,0), (3,2), (0,-3), (0,-4), (2,2) into an empty tree of boundary center
(0,0) and half-dimension 4 yields an Internal tree with those 5 points, and
removing (2,2) collapses it to a single Leaf holding the other 4. -/
theorem C6_remove_merge_check :
    (∀ (t : QTree) (p : Point), p ∉ t.toList → (t.remove p).toList = t.toList) ∧
    (∀ (b : AABB) (c0 c1 c2 c3 : QTree) (p : Point),
      QTree.remove (QTree.internal b c0 c1 c2 c3) p =
        (if (QTree.internal b
              (if getChild b p = 0 then c0.remove p else c0)
              (if getChild b p = 1 then c1.remove p else c1)
              (if getChild b p = 2 then c2.remove p else c2)
              (if getChild b p = 3 then c3.remove p else c3)).toList.length ≤ 4
         then QTree.leaf b (padSlots (QTree.internal b
              (if getChild b p = 0 then c0.remove p else c0)
              (if getChild b p = 1 then c1.remove p else c1)
              (if getChild b p = 2 then c2.remove p else c2)
              (if getChild b p = 3 then c3.remove p else c3)).toList)
         else QTree.internal b
              (if getChild b p = 0 then c0.remove p else c0)
              (if getChild b p = 1 then c1.remove p else c1)
              (if getChild b p = 2 then c2.remove p else c2)
              (if getChild b p = 3 then c3.remove p else c3))) ∧
    setList (QTree.setF 20) (emptyLeaf ⟨0, 0, 4⟩)
        [(0, 0), (3, 2), (0, -3), (0, -4), (2, 2)] = some scenarioTree6 ∧
    scenarioTree6.isInternal = true ∧
    scenarioTree6.toList = [(0, 0), (3, 2), (2, 2), (0, -3), (0, -4)] ∧
    scenarioTree6.remove (2, 2) =
      QTree.leaf ⟨0, 0, 4⟩ [some (0, 0), some (3, 2), some (0, -3), some (0, -4)] := by
  refine ⟨remove_toList_of_not_mem, fun b c0 c1 c2 c3 p => rfl,
    by decide, by decide, by decide, by decide⟩

/-- Witness for C6: a concrete instance of the absent-point clause. -/
theorem C6_remove_merge_check_witness :
    ((5, 5) : Point) ∉ (emptyLeaf ⟨0, 0, 4⟩).toList ∧
    ((emptyLeaf ⟨0, 0, 4⟩).remove (5, 5)).toList = (emptyLeaf ⟨0, 0, 4⟩).toList :=
  ⟨by decide, C6_remove_merge_check.1 (emptyLeaf ⟨0, 0, 4⟩) (5, 5) (by decide)⟩

/-- An interval form of intersects_range: for nonempty half-open ranges it
holds exactly when some integer lies in both. -/
theorem intersectsRange_iff {l1 r1 l2 r2 : Int} (h1 : l1 < r1) (h2 : l2 < r2) :
    intersectsRange (l1, r1) (l2, r2) = true ↔ rangeOverlap (l1, r1) (l2, r2) := by
  simp only [intersectsRange, rangeOverlap, Bool.or_eq_true, Bool.and_eq_true,
    decide_eq_true_eq]
  constructor
  · rintro (⟨ha, hb⟩ | ⟨ha, hb⟩)
    · exact ⟨l2, by omega⟩
    · exact ⟨l1, by omega⟩
  · rintro ⟨x, hx⟩
    omega

/-- Claim C8: intersects is symmetric, and for well-formed boxes (positive
half-dimension, the data-model invariant) it is true exactly when the
half-open x-ranges and y-ranges both overlap. -/
theorem C8_intersects_correct (a b : AABB) (ha : 0 < a.halfDim) (hb : 0 < b.halfDim) :
    a.intersects b = b.intersects a ∧ (a.intersects b = true ↔ overlapSpec a b) := by
  constructor
  · rw [Bool.eq_iff_iff]
    simp only [AABB.intersects, intersectsRange, AABB.xRange, AABB.yRange,
      Bool.and_eq_true, Bool.or_eq_true, decide_eq_true_eq]
    omega
  · simp only [AABB.intersects, Bool.and_eq_true, overlapSpec]
    rw [intersectsRange_iff (by simp [AABB.xRange]; omega) (by simp [AABB.xRange]; omega),
      intersectsRange_iff (by simp [AABB.yRange]; omega) (by simp [AABB.yRange]; omega)]

/-- Witness for C8 at two concrete overlapping boxes. -/
theorem C8_intersects_correct_witness :
    AABB.intersects ⟨0, 0, 2⟩ ⟨1, 0, 2⟩ = AABB.intersects ⟨1, 0, 2⟩ ⟨0, 0, 2⟩ ∧
    (AABB.intersects ⟨0, 0, 2⟩ ⟨1, 0, 2⟩ = true ↔ overlapSpec ⟨0, 0, 2⟩ ⟨1, 0, 2⟩) :=
  C8_intersects_correct ⟨0, 0, 2⟩ ⟨1, 0, 2⟩ (by decide) (by decide)

/-- Two boxes that contain a common point intersect. -/
theorem intersects_of_contains {b a : AABB} {p : Point}
    (hb : b.contains p = true) (ha : a.contains p = true) : b.intersects a = true := by
  simp only [AABB.contains, Bool.and_eq_true, decide_eq_true_eq] at hb ha
  simp only [AABB.intersects, intersectsRange, AABB.xRange, AABB.yRange,
    Bool.and_eq_true, Bool.or_eq_true, decide_eq_true_eq]
  omega

/-- Claim C7, refuted as stated: the tree reached by inserting (-9,6) into
an empty tree of boundary center (0,0), half-dimension 4 stores the point
outside its (under-extended) boundary, and query misses it although the
iterator enumerates it inside the query box. -/
theorem C7_query_counterexample :
    QTree.setF 10 (emptyLeaf ⟨0, 0, 4⟩) (-9, 6) =
      some (QTree.leaf ⟨0, 0, 8⟩ [some (-9, 6), none, none, none]) ∧
    ¬ ((((-9, 6) : Point) ∈
          (QTree.leaf ⟨0, 0, 8⟩ [some (-9, 6), none, none, none]).query ⟨-9, 6, 1⟩) ↔
        ((((-9, 6) : Point) ∈
            (QTree.leaf ⟨0, 0, 8⟩ [some (-9, 6), none, none, none]).toList) ∧
          AABB.contains ⟨-9, 6, 1⟩ (-9, 6) = true)) := by
  refine ⟨by decide, by decide⟩

/-- Claim C7 as amended: for every tree satisfying invariant I2 (every point
stored under a node lies within that node's boundary), query returns, as a
set, exactly the enumerated points that the query box contains. -/
theorem C7_query_amended :
    ∀ (t : QTree), t.wfBounded = true → ∀ (a : AABB) (p : Point),
      p ∈ t.query a ↔ (p ∈ t.toList ∧ a.contains p = true) := by
  intro t
  induction t with
  | leaf b slots =>
      intro hw a p
      simp only [QTree.wfBounded, List.all_eq_true] at hw
      simp only [QTree.query, QTree.toList]
      split
      · simp [List.mem_filter]
      · rename_i hint
        simp only [List.not_mem_nil, false_iff, not_and]
        intro hmem hcont
        exact hint (intersects_of_contains (hw p hmem) hcont)
  | internal b c0 c1 c2 c3 ih0 ih1 ih2 ih3 =>
      intro hw a p
      simp only [QTree.wfBounded, Bool.and_eq_true, List.all_eq_true] at hw
      obtain ⟨⟨⟨⟨hw0, hw1⟩, hw2⟩, hw3⟩, hall⟩ := hw
      simp only [QTree.query, QTree.toList]
      split
      · simp only [List.mem_append, ih0 hw0 a p, ih1 hw1 a p, ih2 hw2 a p, ih3 hw3 a p]
        tauto
      · rename_i hint
        simp only [List.not_mem_nil, false_iff, not_and]
        intro hmem hcont
        refine hint (intersects_of_contains (hall p ?_) hcont)
        simpa [QTree.toList] using hmem

/-- Witness for the amended C7 at a concrete well-bounded leaf. -/
theorem C7_query_amended_witness :
    ((1, 1) : Point) ∈ (QTree.leaf ⟨0, 0, 4⟩ [some (1, 1), none, none, none]).query ⟨0, 0, 2⟩ ↔
      (((1, 1) : Point) ∈ (QTree.leaf ⟨0, 0, 4⟩ [some (1, 1), none, none, none]).toList ∧
        AABB.contains ⟨0, 0, 2⟩ (1, 1) = true) :=
  C7_query_amended (QTree.leaf ⟨0, 0, 4⟩ [some (1, 1), none, none, none]) (by decide)
    ⟨0, 0, 2⟩ (1, 1)

/-- Claim C9: the publisher loop stops at the first failed send without
retrying it, having performed exactly one attempt per successful send plus
the failing one, and the published trees are exactly the successive
generations built by build_next from the initial tree. -/
theorem C9_publisher_shutdown (fuel : Nat) :
    ∀ (k : Nat) (t : QTree) (l : List QTree) (rest : List Bool),
      buildIter fuel k t = some l →
      runModel fuel (List.replicate k true ++ false :: rest) t = some (l, k + 1) := by
  intro k
  induction k with
  | zero =>
      intro t l rest h
      simp only [buildIter] at h
      cases h
      rfl
  | succ k ih =>
      intro t l rest h
      rw [buildIter, Option.bind_eq_some] at h
      obtain ⟨t2, hb, h⟩ := h
      rw [Option.map_eq_some'] at h
      obtain ⟨l2, hi, rfl⟩ := h
      rw [List.replicate_succ, List.cons_append, runModel, hb, Option.some_bind,
        ih t2 l2 rest hi, Option.map_some']

/-- Witness for C9: two successful sends, then the consumer is gone; the
loop performs three attempts and publishes the two generations. -/
theorem C9_publisher_shutdown_witness :
    runModel 5 (List.replicate 2 true ++ false :: []) (emptyLeaf ⟨0, 0, 4⟩) =
      some ([emptyLeaf ⟨0, 0, 4⟩, emptyLeaf ⟨0, 0, 4⟩], 3) :=
  C9_publisher_shutdown 5 2 (emptyLeaf ⟨0, 0, 4⟩) [emptyLeaf ⟨0, 0, 4⟩, emptyLeaf ⟨0, 0, 4⟩]
    [] (by decide)

/-- Insertion into a list of points one by one only ever adds the inserted
points, whatever the insertion function adds pointwise. -/
theorem setList_mem_sub {f : QTree → Point → Option QTree}
    (hf : ∀ t p u, f t p = some u → ∀ q, q ∈ u.toList → q ∈ t.toList ∨ q = p) :
    ∀ (l : List Point) (t u : QTree), setList f t l = some u →
      ∀ q, q ∈ u.toList → q ∈ t.toList ∨ q ∈ l := by
  intro l
  induction l with
  | nil =>
      intro t u h q hq
      cases h
      exact Or.inl hq
  | cons p ps ih =>
      intro t u h q hq
      simp only [setList] at h
      cases hstep : f t p with
      | none => rw [hstep] at h; exact absurd h (by simp)
      | some t2 =>
          rw [hstep] at h
          rcases ih t2 u h q hq with h1 | h1
          · rcases hf t p t2 hstep q h1 with h2 | h2
            · exact Or.inl h2
            · exact Or.inr (by simp [h2])
          · exact Or.inr (List.mem_cons_of_mem _ h1)

/-- The slot scan of set only ever adds the inserted point. -/
theorem insertSlots_mem :
    ∀ (slots slots2 : List (Option Point)) (p q : Point),
      insertSlots slots p = some slots2 → q ∈ slots2.filterMap id →
      q ∈ slots.filterMap id ∨ q = p := by
  intro slots
  induction slots with
  | nil => intro slots2 p q h; simp [insertSlots] at h
  | cons s rest ih =>
      intro slots2 p q h hq
      match s with
      | none =>
          simp only [insertSlots, Option.some.injEq] at h
          subst h
          simp only [List.filterMap_cons] at hq ⊢
          rcases List.mem_cons.1 hq with h1 | h1
          · exact Or.inr h1
          · exact Or.inl h1
      | some r =>
          by_cases hrp : r = p
          · rw [insertSlots, if_pos hrp] at h
            cases h
            exact Or.inl hq
          · rw [insertSlots, if_neg hrp] at h
            cases hrec : insertSlots rest p with
            | none => rw [hrec] at h; exact absurd h (by simp)
            | some r2 =>
                rw [hrec, Option.map_some', Option.some.injEq] at h
                subst h
                simp only [List.filterMap_cons] at hq ⊢
                rcases List.mem_cons.1 hq with h1 | h1
                · subst h1
                  exact Or.inl (List.mem_cons_self _ _)
                · rcases ih r2 p q hrec h1 with h2 | h2
                  · exact Or.inl (List.mem_cons_of_mem _ h2)
                  · exact Or.inr h2

/-- The freshly rebuilt children of extend and subdivide hold no points. -/
theorem toList_fresh (nb b0 b1 b2 b3 : AABB) :
    (QTree.internal nb (emptyLeaf b0) (emptyLeaf b1) (emptyLeaf b2) (emptyLeaf b3)).toList
      = [] := rfl

/-- extend only reshuffles points already in the tree. -/
theorem extendGo_mem {f : QTree → Point → Option QTree}
    (hf : ∀ t p u, f t p = some u → ∀ q, q ∈ u.toList → q ∈ t.toList ∨ q = p) :
    ∀ (t : QTree) (nb : AABB) (u : QTree), extendGo f t nb = some u →
      ∀ q, q ∈ u.toList → q ∈ t.toList := by
  intro t nb u h q hq
  match t with
  | .leaf b slots =>
      simp only [extendGo, Option.some.injEq] at h
      subst h
      exact hq
  | .internal b c0 c1 c2 c3 =>
      simp only [extendGo, newBBs] at h
      have := setList_mem_sub hf _ _ _ h q hq
      rcases this with h1 | h1
      · rw [toList_fresh] at h1
        exact absurd h1 (List.not_mem_nil q)
      · simpa [QTree.toList] using h1

/-- QTree::new only holds the seeded points. -/
theorem newGo_mem {f : QTree → Point → Option QTree}
    (hf : ∀ t p u, f t p = some u → ∀ q, q ∈ u.toList → q ∈ t.toList ∨ q = p) :
    ∀ (b : AABB) (pts : List Point) (u : QTree), newGo f b pts = some u →
      ∀ q, q ∈ u.toList → q ∈ pts := by
  intro b pts u h q hq
  rcases setList_mem_sub hf pts (emptyLeaf b) u h q hq with h1 | h1
  · simp [emptyLeaf, QTree.toList] at h1
  · exact h1

/-- Subdivision only redistributes the occupied slots of the full leaf. -/
theorem subdivideGo_mem {f : QTree → Point → Option QTree}
    (hf : ∀ t p u, f t p = some u → ∀ q, q ∈ u.toList → q ∈ t.toList ∨ q = p) :
    ∀ (b : AABB) (slots : List (Option Point)) (u : QTree),
      subdivideGo f b slots = some u →
      ∀ q, q ∈ u.toList → q ∈ slots.filterMap id := by
  intro b slots u h q hq
  simp only [subdivideGo, newBBs] at h
  cases h0 : newGo f ⟨b.cx + Int.tdiv b.halfDim 2, b.cy + Int.tdiv b.halfDim 2,
      Int.tdiv b.halfDim 2⟩
      ((slots.filterMap id).filter
        (fun p => AABB.contains ⟨b.cx + Int.tdiv b.halfDim 2, b.cy + Int.tdiv b.halfDim 2,
          Int.tdiv b.halfDim 2⟩ p)) with
  | none => rw [h0] at h; exact absurd h (by simp)
  | some t0 =>
      rw [h0] at h
      cases h1 : newGo f ⟨b.cx - Int.tdiv b.halfDim 2, b.cy + Int.tdiv b.halfDim 2,
          Int.tdiv b.halfDim 2⟩
          ((slots.filterMap id).filter
            (fun p => AABB.contains ⟨b.cx - Int.tdiv b.halfDim 2,
              b.cy + Int.tdiv b.halfDim 2, Int.tdiv b.halfDim 2⟩ p)) with
      | none => rw [h1] at h; exact absurd h (by simp)
      | some t1 =>
          rw [h1] at h
          cases h2 : newGo f ⟨b.cx + Int.tdiv b.halfDim 2, b.cy - Int.tdiv b.halfDim 2,
              Int.tdiv b.halfDim 2⟩
              ((slots.filterMap id).filter
                (fun p => AABB.contains ⟨b.cx + Int.tdiv b.halfDim 2,
                  b.cy - Int.tdiv b.halfDim 2, Int.tdiv b.halfDim 2⟩ p)) with
          | none => rw [h2] at h; exact absurd h (by simp)
          | some t2 =>
              rw [h2] at h
              cases h3 : newGo f ⟨b.cx - Int.tdiv b.halfDim 2, b.cy - Int.tdiv b.halfDim 2,
                  Int.tdiv b.halfDim 2⟩
                  ((slots.filterMap id).filter
                    (fun p => AABB.contains ⟨b.cx - Int.tdiv b.halfDim 2,
                      b.cy - Int.tdiv b.halfDim 2, Int.tdiv b.halfDim 2⟩ p)) with
              | none => rw [h3] at h; exact absurd h (by simp)
              | some t3 =>
                  rw [h3] at h
                  cases h
                  simp only [QTree.toList, List.mem_append] at hq
                  rcases hq with ((hc | hc) | hc) | hc
                  · exact (List.mem_filter.1 (newGo_mem hf _ _ _ h0 q hc)).1
                  · exact (List.mem_filter.1 (newGo_mem hf _ _ _ h1 q hc)).1
                  · exact (List.mem_filter.1 (newGo_mem hf _ _ _ h2 q hc)).1
                  · exact (List.mem_filter.1 (newGo_mem hf _ _ _ h3 q hc)).1

/-- Descending into the responsible child only ever adds the inserted
point. -/
theorem setChildGo_mem {f : QTree → Point → Option QTree}
    (hf : ∀ t p u, f t p = some u → ∀ q, q ∈ u.toList → q ∈ t.toList ∨ q = p) :
    ∀ (t : QTree) (p : Point) (u : QTree), setChildGo f t p = some u →
      ∀ q, q ∈ u.toList → q ∈ t.toList ∨ q = p := by
  intro t p u h q hq
  match t with
  | .leaf b slots => simp [setChildGo] at h
  | .internal b c0 c1 c2 c3 =>
      simp only [setChildGo] at h
      split at h
      · cases hm : f c0 p with
        | none => rw [hm] at h; exact absurd h (by simp)
        | some c =>
            rw [hm] at h
            simp only [Option.map_some', Option.some.injEq] at h
            subst h
            simp only [QTree.toList, List.mem_append] at hq ⊢
            rcases hq with ((hc | hc) | hc) | hc
            · rcases hf c0 p c hm q hc with h2 | h2
              · exact Or.inl (by tauto)
              · exact Or.inr h2
            all_goals exact Or.inl (by tauto)
      · split at h
        · cases hm : f c1 p with
          | none => rw [hm] at h; exact absurd h (by simp)
          | some c =>
              rw [hm] at h
              simp only [Option.map_some', Option.some.injEq] at h
              subst h
              simp only [QTree.toList, List.mem_append] at hq ⊢
              rcases hq with ((hc | hc) | hc) | hc
              · exact Or.inl (by tauto)
              · rcases hf c1 p c hm q hc with h2 | h2
                · exact Or.inl (by tauto)
                · exact Or.inr h2
              all_goals exact Or.inl (by tauto)
        · split at h
          · cases hm : f c2 p with
            | none => rw [hm] at h; exact absurd h (by simp)
            | some c =>
                rw [hm] at h
                simp only [Option.map_some', Option.some.injEq] at h
                subst h
                simp only [QTree.toList, List.mem_append] at hq ⊢
                rcases hq with ((hc | hc) | hc) | hc
                · exact Or.inl (by tauto)
                · exact Or.inl (by tauto)
                · rcases hf c2 p c hm q hc with h2 | h2
                  · exact Or.inl (by tauto)
                  · exact Or.inr h2
                · exact Or.inl (by tauto)
          · cases hm : f c3 p with
            | none => rw [hm] at h; exact absurd h (by simp)
            | some c =>
                rw [hm] at h
                simp only [Option.map_some', Option.some.injEq] at h
                subst h
                simp only [QTree.toList, List.mem_append] at hq ⊢
                rcases hq with ((hc | hc) | hc) | hc
                · exact Or.inl (by tauto)
                · exact Or.inl (by tauto)
                · exact Or.inl (by tauto)
                · rcases hf c3 p c hm q hc with h2 | h2
                  · exact Or.inl (by tauto)
                  · exact Or.inr h2

/-- One insertion phase only ever adds the inserted point. -/
theorem setStep_mem {f : QTree → Point → Option QTree}
    (hf : ∀ t p u, f t p = some u → ∀ q, q ∈ u.toList → q ∈ t.toList ∨ q = p) :
    ∀ (t : QTree) (p : Point) (u : QTree), setStep f t p = some u →
      ∀ q, q ∈ u.toList → q ∈ t.toList ∨ q = p := by
  intro t p u h q hq
  match t with
  | .leaf b slots =>
      rw [setStep] at h
      cases hins : insertSlots slots p with
      | some slots2 =>
          rw [hins] at h
          replace h : some (QTree.leaf b slots2) = some u := h
          cases h
          exact insertSlots_mem slots slots2 p q hins hq
      | none =>
          rw [hins] at h
          replace h : (match subdivideGo f b slots with
            | none => none
            | some t2 => setChildGo f t2 p) = some u := h
          cases hsd : subdivideGo f b slots with
          | none => rw [hsd] at h; exact absurd h (by simp)
          | some t2 =>
              rw [hsd] at h
              replace h : setChildGo f t2 p = some u := h
              rcases setChildGo_mem hf t2 p u h q hq with h1 | h1
              · exact Or.inl (subdivideGo_mem hf b slots t2 hsd q h1)
              · exact Or.inr h1
  | .internal b c0 c1 c2 c3 =>
      rw [setStep] at h
      exact setChildGo_mem hf _ p u h q hq

/-- A successful set only ever adds the inserted point: every point of the
result was in the tree or is the new one. -/
theorem setF_mem :
    ∀ (fuel : Nat) (t : QTree) (p : Point) (u : QTree),
      QTree.setF fuel t p = some u → ∀ q, q ∈ u.toList → q ∈ t.toList ∨ q = p := by
  intro fuel
  induction fuel with
  | zero => intro t p u h; simp [QTree.setF] at h
  | succ fuel ih =>
      intro t p u h q hq
      rw [QTree.setF] at h
      by_cases hc : (QTree.boundary t).contains p = true
      · rw [if_pos hc] at h
        replace h : setStep (QTree.setF fuel) t p = some u := h
        exact setStep_mem ih t p u h q hq
      · rw [if_neg hc] at h
        cases hext : extendGo (QTree.setF fuel) t
            ⟨(QTree.boundary t).cx, (QTree.boundary t).cy, halfDimFor p⟩ with
        | none => rw [hext] at h; exact absurd h (by simp)
        | some t1 =>
            rw [hext] at h
            replace h : setStep (QTree.setF fuel) t1 p = some u := h
            rcases setStep_mem ih t1 p u h q hq with h1 | h1
            · exact Or.inl (extendGo_mem ih t _ t1 hext q h1)
            · exact Or.inr h1

/-- The slot scan of set succeeds on a leaf with a free slot, changing the
occupied points by at most adding the inserted one. -/
theorem insertSlots_small :
    ∀ (slots : List (Option Point)) (p : Point),
      (slots.filterMap id).length < slots.length →
      ∃ slots2, insertSlots slots p = some slots2 ∧
        slots2.length = slots.length ∧
        (slots2.filterMap id).length ≤ (slots.filterMap id).length + 1 ∧
        (∀ q, q ∈ slots2.filterMap id ↔ q ∈ slots.filterMap id ∨ q = p) := by
  intro slots
  induction slots with
  | nil => intro p h; simp at h
  | cons s rest ih =>
      intro p h
      match s with
      | none =>
          refine ⟨some p :: rest, rfl, by simp, ?_, ?_⟩
          · simp
          · intro q
            simp [List.mem_cons]
            tauto
      | some r =>
          by_cases hrp : r = p
          · refine ⟨some r :: rest, by rw [insertSlots, if_pos hrp], rfl, by omega, ?_⟩
            intro q
            subst hrp
            simp [List.mem_cons]
            tauto
          · have hlt : (rest.filterMap id).length < rest.length := by
              simpa using h
            obtain ⟨r2, heq, hlen, hfill, hmem⟩ := ih p hlt
            refine ⟨some r :: r2, by rw [insertSlots, if_neg hrp, heq]; rfl, by simp [hlen],
              ?_, ?_⟩
            · simp
              omega
            · intro q
              simp [List.mem_cons, hmem q]
              tauto

/-- One set on a leaf with a free slot: the boundary may be replaced by the
extension boundary, the slots get the point added by the slot scan. -/
theorem setF_leaf_succ (fuel : Nat) (b : AABB) (slots : List (Option Point)) (p : Point)
    (slots2 : List (Option Point)) (heq : insertSlots slots p = some slots2) :
    QTree.setF (Nat.succ fuel) (QTree.leaf b slots) p =
      some (QTree.leaf (if b.contains p then b else ⟨b.cx, b.cy, halfDimFor p⟩) slots2) := by
  rw [QTree.setF]
  rw [show QTree.boundary (QTree.leaf b slots) = b from rfl]
  by_cases hc : b.contains p = true
  · rw [if_pos hc, if_pos hc]
    show setStep (QTree.setF fuel) (QTree.leaf b slots) p = some (QTree.leaf b slots2)
    rw [setStep, heq]
  · rw [if_neg hc, if_neg hc, extendGo]
    show setStep (QTree.setF fuel) (QTree.leaf ⟨b.cx, b.cy, halfDimFor p⟩ slots) p =
      some (QTree.leaf ⟨b.cx, b.cy, halfDimFor p⟩ slots2)
    rw [setStep, heq]

/-- Inserting at most as many points as free slots into a leaf keeps it a
leaf and makes its occupied points exactly the old ones plus the inserted
ones. -/
theorem setList_leaf_small :
    ∀ (l : List Point) (fuel : Nat) (b : AABB) (slots : List (Option Point)) (u : QTree),
      slots.length = 4 →
      (slots.filterMap id).length + l.length ≤ 4 →
      setList (QTree.setF fuel) (QTree.leaf b slots) l = some u →
      ∃ b2 slots2, u = QTree.leaf b2 slots2 ∧ slots2.length = 4 ∧
        (∀ q, q ∈ slots2.filterMap id ↔ q ∈ slots.filterMap id ∨ q ∈ l) := by
  intro l
  induction l with
  | nil =>
      intro fuel b slots u h4 hlen h
      replace h : some (QTree.leaf b slots) = some u := h
      cases h
      exact ⟨b, slots, rfl, h4, by simp⟩
  | cons p ps ih =>
      intro fuel b slots u h4 hlen h
      rw [setList] at h
      cases fuel with
      | zero =>
          rw [QTree.setF] at h
          exact absurd h (by simp)
      | succ fuel =>
          have hfree : (slots.filterMap id).length < slots.length := by
            simp only [List.length_cons] at hlen
            rw [h4]
            omega
          obtain ⟨slots2, heq, hlen2, hfill2, hmem2⟩ := insertSlots_small slots p hfree
          rw [setF_leaf_succ fuel b slots p slots2 heq] at h
          replace h : setList (QTree.setF (Nat.succ fuel))
              (QTree.leaf (if b.contains p then b else ⟨b.cx, b.cy, halfDimFor p⟩) slots2)
              ps = some u := h
          have hlen3 : (slots2.filterMap id).length + ps.length ≤ 4 := by
            simp only [List.length_cons] at hlen
            omega
          obtain ⟨b3, slots3, hu, h43, hmem3⟩ :=
            ih (Nat.succ fuel) _ slots2 u (hlen2.trans h4) hlen3 h
          refine ⟨b3, slots3, hu, h43, fun q => ?_⟩
          rw [hmem3 q, hmem2 q]
          simp only [List.mem_cons]
          tauto

/-- Claim C10 as amended: build_next never invents points (its result
enumerates a subset of the current points), and when the current tree
stores at most 4 points the rebuilt tree enumerates exactly the same set;
in general points can be dropped during the rebuild, as the counterexample
shows. -/
theorem C10_buildNext_amended :
    (∀ (fuel : Nat) (t u : QTree), buildNextF fuel t = some u →
      ∀ q, q ∈ u.toList → q ∈ t.toList) ∧
    (∀ (fuel : Nat) (t u : QTree), t.toList.length ≤ 4 → buildNextF fuel t = some u →
      ∀ q, q ∈ u.toList ↔ q ∈ t.toList) := by
  constructor
  · intro fuel t u h q hq
    rcases setList_mem_sub (setF_mem fuel) t.toList (emptyLeaf t.boundary) u h q hq with
      h1 | h1
    · simp [emptyLeaf, QTree.toList] at h1
    · exact h1
  · intro fuel t u hlen h q
    obtain ⟨b2, slots2, hu, h42, hmem⟩ :=
      setList_leaf_small t.toList fuel t.boundary [none, none, none, none] u rfl
        (by simpa using hlen) h
    subst hu
    simp only [QTree.toList]
    rw [hmem q]
    simp

/-- Claim C10, refuted as stated: a tree holding five points, all inside its
root boundary of half-dimension 5, for which build_next loses the point
(4,4): the rebuild inserts the enumerated points into a fresh tree and the
subdivision of the full leaf drops (4,4), which lies in none of the four
quadrant boxes of the odd half-dimension boundary. -/
theorem C10_buildNext_counterexample :
    dropTree10.toList = [(4, 4), (0, 0), (1, 1), (2, 2), (3, 3)] ∧
    dropTree10.toList.all (fun p => dropTree10.boundary.contains p) = true ∧
    (buildNextF 20 dropTree10).map (fun u => decide (((4, 4) : Point) ∈ u.toList)) =
      some false := by
  refine ⟨by decide, by decide, by decide⟩

/-- Witness for the amended C10: rebuilding a one-point internal tree
yields a leaf enumerating the same single point. -/
theorem C10_buildNext_amended_witness :
    ((1, 1) : Point) ∈
        (QTree.leaf (⟨0, 0, 4⟩ : AABB) [some (1, 1), none, none, none]).toList ↔
      ((1, 1) : Point) ∈
        (QTree.internal ⟨0, 0, 4⟩
          (QTree.leaf ⟨2, 2, 2⟩ [some (1, 1), none, none, none])
          (emptyLeaf ⟨-2, 2, 2⟩) (emptyLeaf ⟨2, -2, 2⟩)
          (emptyLeaf ⟨-2, -2, 2⟩)).toList :=
  C10_buildNext_amended.2 5
    (QTree.internal ⟨0, 0, 4⟩
      (QTree.leaf ⟨2, 2, 2⟩ [some (1, 1), none, none, none])
      (emptyLeaf ⟨-2, 2, 2⟩) (emptyLeaf ⟨2, -2, 2⟩) (emptyLeaf ⟨-2, -2, 2⟩))
    (QTree.leaf ⟨0, 0, 4⟩ [some (1, 1), none, none, none])
    (by decide) (by decide) (1, 1)

end Conway
